import Mathlib

/-!
Shallow embedding of `src/periodic_functions.rs` of the `wavy-rs` waveform library.

`f64` values are modelled as real numbers; `PeriodicFunction` (in Rust a
`Box<dyn Fn(f64) -> f64 + Send + Sync>`) is modelled as a plain function `ℝ → ℝ`,
and `invoke` is function application.  The two compile-time numeric backends
(`std` hosted math and `libm` software math) are modelled as separate definitions
so that their agreement can be stated and proved.
-/

open Real

/-- `PeriodicFunction`: a boxed pure closure from time (seconds) to amplitude. -/
abbrev PeriodicFunction : Type := ℝ → ℝ

/-- `custom<F>(f) -> PeriodicFunction`: wraps a caller-supplied function unchanged
(`Box::new(f)`). -/
def custom (f : ℝ → ℝ) : PeriodicFunction := f

/-- `dc_bias(bias) -> PeriodicFunction`: `Box::new(move |_| bias)`. -/
def dc_bias (bias : ℝ) : PeriodicFunction := fun _ => bias

/-- Truncation toward zero: the semantics of Rust `f64::trunc`, which underlies
`f64::fract` (`x.fract() = x - x.trunc()`), and of the integral part returned by
libm `modf`. -/
noncomputable def trunc (x : ℝ) : ℝ := if 0 ≤ x then (⌊x⌋ : ℝ) else (⌈x⌉ : ℝ)

/-- Hosted-math `frac` (`cfg(feature = "std")`): `x.fract()`, the signed fractional
part `x - x.trunc()`. -/
noncomputable def frac (x : ℝ) : ℝ := x - trunc x

/-- libm `modf`: splits `x` into fractional and integral parts, both carrying the
sign of `x`. -/
noncomputable def modf (x : ℝ) : ℝ × ℝ := (x - trunc x, trunc x)

/-- Software-math `frac` (`cfg(not(std), libm)`): `let (frac, _) = modf(x); frac`. -/
noncomputable def frac_libm (x : ℝ) : ℝ := (modf x).1

/-- `sawtooth(frequency, amplitude, phase)`:
`Box::new(move |t| 2.0 * amplitude * frac(t * frequency + phase) - amplitude)`. -/
noncomputable def sawtooth (frequency amplitude phase : ℝ) : PeriodicFunction :=
  fun t => 2 * amplitude * frac (t * frequency + phase) - amplitude

/-- Hosted-math `_sine` (`cfg(std, not(libm))`):
`let radians = (2.0 * PI * frequency * t) + (phase * 2.0 * PI); radians.sin() * amplitude`. -/
noncomputable def sine_hosted (frequency amplitude phase : ℝ) : PeriodicFunction :=
  fun t => Real.sin ((2 * π * frequency * t) + (phase * 2 * π)) * amplitude

/-- Software-math `_sine` (`cfg(libm)`):
`sin((2.0 * PI * frequency * t) + (phase * 2.0 * PI)) * amplitude`. -/
noncomputable def sine_libm (frequency amplitude phase : ℝ) : PeriodicFunction :=
  fun t => Real.sin ((2 * π * frequency * t) + (phase * 2 * π)) * amplitude

/-- Public `sine` builder: delegates to the selected `_sine`. -/
noncomputable def sine (frequency amplitude phase : ℝ) : PeriodicFunction :=
  sine_hosted frequency amplitude phase

/-- Hosted-math `_square` (`cfg(std, not(libm))`):
`let power = (2.0 * (t - phase) * frequency).floor() as i32; amplitude * (-1f64).powi(power)`.
The integer exponent is modelled as the mathematical floor. -/
noncomputable def square_hosted (frequency amplitude phase : ℝ) : PeriodicFunction :=
  fun t => amplitude * (-1 : ℝ) ^ ⌊2 * (t - phase) * frequency⌋

/-- Software-math `_square` (`cfg(libm)`):
`amplitude * pow(-1.0, floor(2.0 * (t - phase) * frequency))`, with `pow` the real
power function applied to the (integer-valued) floor. -/
noncomputable def square_libm (frequency amplitude phase : ℝ) : PeriodicFunction :=
  fun t => amplitude * Real.rpow (-1) ((⌊2 * (t - phase) * frequency⌋ : ℤ) : ℝ)

/-- Public `square` builder: delegates to the selected `_square`. -/
noncomputable def square (frequency amplitude phase : ℝ) : PeriodicFunction :=
  square_hosted frequency amplitude phase

/-- Expansion of the named three-argument arm of the `sawtooth!` macro:
`(frequency: $f, amplitude: $a, phase: $p) => sawtooth!($f, $a, 0.0)`, which in turn
expands to `sawtooth($f, $a, 0.0)` — the supplied phase is discarded. -/
noncomputable def sawtooth_macro_named (frequency amplitude phase : ℝ) : PeriodicFunction :=
  sawtooth frequency amplitude 0.0

/-- Expansion of the named three-argument arm of the `square!` macro:
`(frequency: $f, amplitude: $a, phase: $p) => square!($f, $a, 0.0)`, which in turn
expands to `square($f, $a, 0.0)` — the supplied phase is discarded. -/
noncomputable def square_macro_named (frequency amplitude phase : ℝ) : PeriodicFunction :=
  square frequency amplitude 0.0

/-- `trunc` agrees with the floor on nonnegative inputs. -/
theorem trunc_of_nonneg {x : ℝ} (hx : 0 ≤ x) : trunc x = (⌊x⌋ : ℝ) := if_pos hx

/-- `trunc` agrees with the ceiling on negative inputs. -/
theorem trunc_of_neg {x : ℝ} (hx : x < 0) : trunc x = (⌈x⌉ : ℝ) := if_neg (not_le.mpr hx)

/-- On nonnegative inputs `frac` is the usual fractional part. -/
theorem frac_eq_fract_of_nonneg {x : ℝ} (hx : 0 ≤ x) : frac x = Int.fract x := by
  rw [frac, trunc_of_nonneg hx]; rfl

/-- Claim C2: for all `f a p t`, `square(f, a, p).invoke(t) = a * (-1) ^ ⌊2 * (t - p) * f⌋`;
consequently the output is `+a` when `⌊2 * (t - p) * f⌋` is even and `-a` when it is odd,
so the sign flips exactly with the parity of that floor (fixed 50% duty cycle). -/
theorem square_invoke_eq (f a p t : ℝ) :
    square f a p t = a * (-1 : ℝ) ^ ⌊2 * (t - p) * f⌋ ∧
    (Even ⌊2 * (t - p) * f⌋ → square f a p t = a) ∧
    (Odd ⌊2 * (t - p) * f⌋ → square f a p t = -a) := by
  refine ⟨rfl, fun h => ?_, fun h => ?_⟩
  · show a * (-1 : ℝ) ^ ⌊2 * (t - p) * f⌋ = a
    rw [h.neg_one_zpow, mul_one]
  · show a * (-1 : ℝ) ^ ⌊2 * (t - p) * f⌋ = -a
    rw [h.neg_one_zpow, mul_neg_one]

/-- Witness for C2 at `f = 1, a = 1, p = 0, t = 0`. -/
theorem square_invoke_eq_witness : square 1 1 0 0 = 1 := by
  refine (square_invoke_eq 1 1 0 0).2.1 ?_
  have h : (2 * ((0 : ℝ) - 0) * 1) = 0 := by ring
  rw [h, Int.floor_zero]
  exact even_zero

/-- Claim C3: for all `f a p t`,
`sawtooth(f, a, p).invoke(t) = 2 * a * frac (t * f + p) - a`, with `frac` the signed
fractional-part primitive. -/
theorem sawtooth_invoke_eq (f a p t : ℝ) :
    sawtooth f a p t = 2 * a * frac (t * f + p) - a := rfl

/-- Claim C4: for all `f a p t`,
`sine(f, a, p).invoke(t) = sin(2π * f * t + p * 2π) * a` (phase in whole-period units),
and the default sine `sine(1, 1, 0)` has its peak at `t = 0.25`, trough at `t = 0.75`
and zero crossing at `t = 0.5`, each within tolerance `1e-3` (in fact exactly). -/
theorem sine_invoke_eq (f a p t : ℝ) :
    sine f a p t = Real.sin ((2 * π * f * t) + (p * 2 * π)) * a ∧
    |sine 1 1 0 0.25 - 1| < 1e-3 ∧
    |sine 1 1 0 0.75 - (-1)| < 1e-3 ∧
    |sine 1 1 0 0.5 - 0| < 1e-3 := by
  refine ⟨rfl, ?_, ?_, ?_⟩
  · have h : sine 1 1 0 0.25 = 1 := by
      show Real.sin ((2 * π * 1 * 0.25) + (0 * 2 * π)) * 1 = 1
      have harg : (2 * π * 1 * 0.25) + (0 * 2 * π) = π / 2 := by norm_num; ring
      rw [harg, Real.sin_pi_div_two, mul_one]
    rw [h]; norm_num
  · have h : sine 1 1 0 0.75 = -1 := by
      show Real.sin ((2 * π * 1 * 0.75) + (0 * 2 * π)) * 1 = -1
      have harg : (2 * π * 1 * 0.75) + (0 * 2 * π) = π / 2 + π := by norm_num; ring
      rw [harg, Real.sin_add_pi, Real.sin_pi_div_two, mul_one]
    rw [h]; norm_num
  · have h : sine 1 1 0 0.5 = 0 := by
      show Real.sin ((2 * π * 1 * 0.5) + (0 * 2 * π)) * 1 = 0
      have harg : (2 * π * 1 * 0.5) + (0 * 2 * π) = π := by norm_num; ring
      rw [harg, Real.sin_pi, zero_mul]
    rw [h]; norm_num

/-- Counterexample to C5 as stated: with `f = 1 > 0`, `a = 1 ≥ 0`, `p = 0`, at the
negative time `t = -(1/2)` the output is `-2`, strictly below the claimed lower
bound `-a = -1`. -/
theorem sawtooth_escapes_range :
    (0 : ℝ) < 1 ∧ (0 : ℝ) ≤ 1 ∧ sawtooth 1 1 0 (-(1 / 2)) = -2 := by
  refine ⟨by norm_num, by norm_num, ?_⟩
  show 2 * 1 * frac (-(1 / 2) * 1 + 0) - 1 = -2
  have harg : (-(1 / 2) * 1 + 0 : ℝ) = -(1 / 2) := by ring
  have hc : ⌈(-(1 / 2) : ℝ)⌉ = 0 := by
    rw [Int.ceil_eq_iff]
    constructor <;> norm_num
  rw [harg, frac, trunc_of_neg (by norm_num), hc]
  norm_num

/-- Claim C5 (amended): the `[-a, a]` range bound holds for every sample whose frac
argument `t * f + p` is nonnegative (in particular for all `t ≥ 0` when `p ≥ 0`);
for negative frac arguments the signed `frac` makes the output fall in `[-3a, -a]`
instead, as the counterexample shows. -/
theorem sawtooth_range_of_nonneg_arg (f a p t : ℝ) (hf : 0 < f) (ha : 0 ≤ a)
    (ht : 0 ≤ t * f + p) : -a ≤ sawtooth f a p t ∧ sawtooth f a p t ≤ a := by
  have hfr : frac (t * f + p) = Int.fract (t * f + p) := frac_eq_fract_of_nonneg ht
  have h0 : 0 ≤ Int.fract (t * f + p) := Int.fract_nonneg _
  have h1 : Int.fract (t * f + p) < 1 := Int.fract_lt_one _
  show -a ≤ 2 * a * frac (t * f + p) - a ∧ 2 * a * frac (t * f + p) - a ≤ a
  rw [hfr]
  constructor <;> nlinarith

/-- Witness for the amended C5 at `f = 1, a = 1, p = 0, t = 0`. -/
theorem sawtooth_range_of_nonneg_arg_witness :
    -1 ≤ sawtooth 1 1 0 0 ∧ sawtooth 1 1 0 0 ≤ 1 :=
  sawtooth_range_of_nonneg_arg 1 1 0 0 (by norm_num) (by norm_num) (by norm_num)

/-- Claim C6: at every sample point the hosted-math (`std`) and software-math
(`libm`) implementations of `frac`, `_sine` and `_square` agree within `1e-9`
relative tolerance — in the real-valued model they agree exactly, so the
difference is `0`. -/
theorem backend_agreement (x f a p t : ℝ) :
    |frac x - frac_libm x| ≤ 1e-9 * |frac x| ∧
    |sine_hosted f a p t - sine_libm f a p t| ≤ 1e-9 * |sine_hosted f a p t| ∧
    |square_hosted f a p t - square_libm f a p t| ≤ 1e-9 * |square_hosted f a p t| := by
  have h1 : frac_libm x = frac x := rfl
  have h2 : sine_libm f a p t = sine_hosted f a p t := rfl
  have h3 : square_libm f a p t = square_hosted f a p t := by
    show a * (-1 : ℝ) ^ ((⌊2 * (t - p) * f⌋ : ℤ) : ℝ) = a * (-1 : ℝ) ^ ⌊2 * (t - p) * f⌋
    rw [Real.rpow_intCast]
  rw [h1, h2, h3]
  refine ⟨?_, ?_, ?_⟩ <;> · rw [sub_self, abs_zero]; positivity

/-- Claim C7: `dc_bias(b).invoke(t) = b` exactly, for every bias and every time;
the time argument is ignored and the captured bias returned unchanged. -/
theorem dc_bias_invoke (b t : ℝ) : dc_bias b t = b := rfl

/-- Claim C8: every constructed Periodic Function — `custom` included — is
deterministic: two invocations at the same time value give identical results.
In the embedding every builder returns a pure function of its captured
parameters and the time argument (the Rust closures capture immutably and are
`Fn`, not `FnMut`), so this holds definitionally. -/
theorem invoke_deterministic (g : ℝ → ℝ) (b f a p t : ℝ) :
    custom g t = custom g t ∧ dc_bias b t = dc_bias b t ∧
    sawtooth f a p t = sawtooth f a p t ∧ sine f a p t = sine f a p t ∧
    square f a p t = square f a p t :=
  ⟨rfl, rfl, rfl, rfl, rfl⟩

/-- Claim C9 fails on the code: the named three-argument arms of `sawtooth!` and
`square!` expand with `0.0` where the supplied phase belongs, so with a nonzero
phase the macro builds a different Periodic Function than the positional builder
call.  At `t = 0`: the macro form of `sawtooth` with phase `1/2` yields `-1`
while `sawtooth(1, 1, 1/2)` yields `0`; the macro form of `square` with phase
`1/4` yields `1` while `square(1, 1, 1/4)` yields `-1`. -/
theorem macro_named_drops_phase :
    sawtooth_macro_named 1 1 (1 / 2) 0 = -1 ∧ sawtooth 1 1 (1 / 2) 0 = 0 ∧
    square_macro_named 1 1 (1 / 4) 0 = 1 ∧ square 1 1 (1 / 4) 0 = -1 := by
  have hfloor0 : ⌊(0 : ℝ)⌋ = 0 := Int.floor_zero
  have hfloor_half : ⌊(1 / 2 : ℝ)⌋ = 0 := by
    rw [Int.floor_eq_iff]
    constructor <;> norm_num
  have hfloor_neg_half : ⌊(-(1 / 2) : ℝ)⌋ = -1 := by
    rw [Int.floor_eq_iff]
    constructor <;> norm_num
  refine ⟨?_, ?_, ?_, ?_⟩
  · show 2 * 1 * frac (0 * 1 + 0.0) - 1 = -1
    have harg : (0 * 1 + 0.0 : ℝ) = 0 := by norm_num
    rw [harg, frac, trunc_of_nonneg le_rfl, hfloor0]
    norm_num
  · show 2 * 1 * frac (0 * 1 + 1 / 2) - 1 = 0
    have harg : (0 * 1 + 1 / 2 : ℝ) = 1 / 2 := by ring
    rw [harg, frac, trunc_of_nonneg (by norm_num), hfloor_half]
    norm_num
  · show 1 * (-1 : ℝ) ^ ⌊2 * ((0 : ℝ) - 0.0) * 1⌋ = 1
    have harg : (2 * ((0 : ℝ) - 0.0) * 1) = 0 := by norm_num
    rw [harg, hfloor0]
    norm_num
  · show 1 * (-1 : ℝ) ^ ⌊2 * ((0 : ℝ) - 1 / 4) * 1⌋ = -1
    have harg : (2 * ((0 : ℝ) - 1 / 4) * 1) = -(1 / 2) := by ring
    rw [harg, hfloor_neg_half, (by decide : Odd (-1 : ℤ)).neg_one_zpow]
    norm_num

/-- Claim C10: `frac` is sign-preserving in both backends (nonnegative inputs give
nonnegative fractional parts, nonpositive inputs nonpositive ones), and the spec's
sample values hold in both backends: `frac(-5.55) ≈ -0.55` and `frac(1.5) ≈ 0.5`
within `1e-3` (in fact exactly). -/
theorem frac_sign_preserving :
    (∀ x : ℝ, 0 ≤ x → 0 ≤ frac x ∧ 0 ≤ frac_libm x) ∧
    (∀ x : ℝ, x ≤ 0 → frac x ≤ 0 ∧ frac_libm x ≤ 0) ∧
    |frac (-5.55) - (-0.55)| < 1e-3 ∧ |frac_libm (-5.55) - (-0.55)| < 1e-3 ∧
    |frac 1.5 - 0.5| < 1e-3 ∧ |frac_libm 1.5 - 0.5| < 1e-3 := by
  have hlibm : ∀ x : ℝ, frac_libm x = frac x := fun _ => rfl
  have hpos : ∀ x : ℝ, 0 ≤ x → 0 ≤ frac x := by
    intro x hx
    rw [frac_eq_fract_of_nonneg hx]
    exact Int.fract_nonneg x
  have hneg : ∀ x : ℝ, x ≤ 0 → frac x ≤ 0 := by
    intro x hx
    rcases lt_or_eq_of_le hx with hlt | heq
    · rw [frac, trunc_of_neg hlt, sub_nonpos]
      exact Int.le_ceil x
    · rw [heq, frac, trunc_of_nonneg le_rfl, Int.floor_zero]
      norm_num
  have hval1 : frac (-5.55) = -0.55 := by
    have hc : ⌈(-5.55 : ℝ)⌉ = -5 := by
      rw [Int.ceil_eq_iff]
      constructor <;> norm_num
    rw [frac, trunc_of_neg (by norm_num), hc]
    norm_num
  have hval2 : frac (1.5 : ℝ) = 0.5 := by
    have hf : ⌊(1.5 : ℝ)⌋ = 1 := by
      rw [Int.floor_eq_iff]
      constructor <;> norm_num
    rw [frac, trunc_of_nonneg (by norm_num), hf]
    norm_num
  refine ⟨fun x hx => ⟨hpos x hx, by rw [hlibm]; exact hpos x hx⟩,
    fun x hx => ⟨hneg x hx, by rw [hlibm]; exact hneg x hx⟩, ?_, ?_, ?_, ?_⟩
  · rw [hval1]; norm_num
  · rw [hlibm, hval1]; norm_num
  · rw [hval2]; norm_num
  · rw [hlibm, hval2]; norm_num

/-- Witness for C10 at `x = 2` and `x = -2`. -/
theorem frac_sign_preserving_witness : 0 ≤ frac 2 ∧ frac (-2) ≤ 0 :=
  ⟨(frac_sign_preserving.1 2 (by norm_num)).1,
   (frac_sign_preserving.2.1 (-2) (by norm_num)).1⟩
